import Mathlib

/-! # rastertohp: the HP-PCL raster filter

A shallow embedding of `filter/rastertohp.c` and the properties of its line
codecs, blank-line handling and plane layout.

Conventions of the embedding

* A byte (`unsigned char`) is a `Nat`; a value the C code computes as an `int`
  and stores into an `unsigned char` is reduced `% 256` at the store.
* A pointer into the line together with `line_end` is the list of the bytes
  from the pointer up to `line_end`: `line_ptr < line_end` is "the list is not
  empty", `line_ptr[0]` is its head, `line_ptr ++` is its tail.
* The scratch buffer `CompBuffer` is written strictly left to right through
  `comp_ptr`; every codec loop returns, per iteration, the bytes that iteration
  stores at `comp_ptr` before advancing it.
* `stdout` is the list of the bytes written to it.
* The widths, counts and counters of the program (`unsigned` header fields,
  `int` globals) are natural numbers.  The header type is declared in
  `raster.h`, outside these sources, and no property below is about the wrap of
  a machine word.
-/

set_option autoImplicit false

namespace Rastertohp

/-! ## CompressData, `case 1`: run-length encoding -/

/-- The inner `for (count = 1; (line_ptr + count) < line_end &&
line_ptr[0] == line_ptr[count] && count < 256; count ++);` of the run-length
branch.  `b` is `line_ptr[0]`, the list holds the bytes from `line_ptr + count`
up to `line_end`, and the result is the final `count`. -/
def rleCount (b : Nat) : List Nat → Nat → Nat
  | [], count => count
  | y :: rest, count =>
      if b = y ∧ count < 256 then rleCount b rest (count + 1) else count

/-- The outer `for (line_ptr = line, comp_ptr = CompBuffer; line_ptr < line_end;
comp_ptr += 2, line_ptr += count)` of the run-length branch: one two-byte store
`comp_ptr[0] = count - 1; comp_ptr[1] = line_ptr[0];` per iteration. -/
def rleLoop : List Nat → List (List Nat)
  | [] => []
  | b :: rest =>
      [(rleCount b rest 1 - 1) % 256, b] ::
        rleLoop ((b :: rest).drop (rleCount b rest 1))
termination_by line => line.length
decreasing_by
  have h : ∀ (l : List Nat) (c : Nat), c ≤ rleCount b l c := by
    intro l
    induction l with
    | nil => intro c; simp [rleCount]
    | cons y t ih =>
        intro c
        unfold rleCount
        split
        · exact Nat.le_trans (Nat.le_succ c) (ih (c + 1))
        · exact Nat.le_refl c
  have h1 := h rest 1
  simp only [List.length_drop, List.length_cons]
  omega

/-! ## CompressData, `case 2`: TIFF pack-bits encoding -/

/-- The `while (line_ptr < (line_end - 1) && line_ptr[0] == line_ptr[1] &&
count < 127) { line_ptr ++; count ++; }` loop of the repeated-sequence branch.
`b` is `line_ptr[0]` and the list holds the bytes after it up to `line_end`;
the result is the final `line_ptr[0]`, the bytes after it, and `count`. -/
def repeatScan (b : Nat) : List Nat → Nat → Nat × List Nat × Nat
  | [], count => (b, [], count)
  | y :: rest, count =>
      if b = y ∧ count < 127 then repeatScan y rest (count + 1)
      else (b, y :: rest, count)

/-- The `while (line_ptr < (line_end - 1) && line_ptr[0] != line_ptr[1] &&
count < 127) { line_ptr ++; count ++; }` loop of the non-repeated branch, with
the same reading of the arguments and of the result as `repeatScan`. -/
def literalScan (b : Nat) : List Nat → Nat → Nat × List Nat × Nat
  | [], count => (b, [], count)
  | y :: rest, count =>
      if b ≠ y ∧ count < 127 then literalScan y rest (count + 1)
      else (b, y :: rest, count)

/-- The `while (line_ptr < line_end)` loop of the pack-bits branch.  Each
iteration takes one of the three branches of the C code and stores one chunk:

* single byte on the end: `0x00`, then the byte;
* repeated sequence: `257 - count`, then `*line_ptr++`;
* non-repeated sequence: `count - 1`, then `memcpy(comp_ptr, start, count)`,
  leaving `line_ptr` on the first byte that was not copied. -/
def packBitsLoop : List Nat → List (List Nat)
  | [] => []
  | [b] => [0x00, b] :: packBitsLoop []
  | b0 :: b1 :: rest =>
      if b0 = b1 then
        [(257 - (repeatScan b1 rest 2).2.2) % 256, (repeatScan b1 rest 2).1] ::
          packBitsLoop (repeatScan b1 rest 2).2.1
      else
        (((literalScan b1 rest 1).2.2 - 1) % 256 ::
            (b0 :: b1 :: rest).take (literalScan b1 rest 1).2.2) ::
          packBitsLoop ((literalScan b1 rest 1).1 :: (literalScan b1 rest 1).2.1)
termination_by line => line.length
decreasing_by
  · simp
  · have h : ∀ (l : List Nat) (b c : Nat), (repeatScan b l c).2.1.length ≤ l.length := by
      intro l
      induction l with
      | nil => intro _ _; simp [repeatScan]
      | cons y t ih =>
          intro b c
          unfold repeatScan
          split
          · exact Nat.le_trans (ih y (c + 1)) (Nat.le_succ _)
          · exact Nat.le_refl _
    have h1 := h rest b1 2
    simp only [List.length_cons]
    omega
  · have h : ∀ (l : List Nat) (b c : Nat), (literalScan b l c).2.1.length ≤ l.length := by
      intro l
      induction l with
      | nil => intro _ _; simp [literalScan]
      | cons y t ih =>
          intro b c
          unfold literalScan
          split
          · exact Nat.le_trans (ih y (c + 1)) (Nat.le_succ _)
          · exact Nat.le_refl _
    have h1 := h rest b1 1
    simp only [List.length_cons]
    omega

/-! ## CompressData -/

/-- The `%d` conversion of `printf`, as character codes, most significant
digit first.  Every integer the filter prints is non-negative. -/
def decimal (n : Nat) : List Nat :=
  (Nat.toDigits 10 n).map Char.toNat

/-- The character codes of a C string literal. -/
def str (s : String) : List Nat :=
  s.toList.map Char.toNat

/-- The bytes between `line_ptr` and `line_end` when the `switch (type)` of
`CompressData` is left: the line itself in the `default` case, the bytes stored
in `CompBuffer` in the cases 1 and 2. -/
def compressed (line : List Nat) (type : Int) : List Nat :=
  if type = 1 then (rleLoop line).flatten
  else if type = 2 then (packBitsLoop line).flatten
  else line

/-- `CompressData(line, length, plane, type)`: the bytes written to `stdout`.
`line` holds the `length` bytes at the pointer `line`; `plane` is the character
printed by `%c`. -/
def CompressData (line : List Nat) (plane : Nat) (type : Int) : List Nat :=
  str "\x1b*b" ++ decimal (compressed line type).length ++ [plane] ++
    compressed line type

/-- Modelled from the spec: the colour-space tag of the page header.  The
enumeration `cups_cspace_t` is declared in `raster.h`, which is not part of the
sources; the filter tells `CUPS_CSPACE_KCMY` and `CUPS_CSPACE_CMY` apart from
every other tag. -/
inductive cups_cspace_t where
  | CUPS_CSPACE_KCMY
  | CUPS_CSPACE_CMY
  | other (tag : Nat)
  deriving DecidableEq, Repr

/-- Modelled from the spec: the fields of `cups_page_header_t` (declared in
`raster.h`, which is not part of the sources) that the filter reads.
`PageSize1` is `PageSize[1]` and `HWResolution0` is `HWResolution[0]`. -/
structure cups_page_header_t where
  MediaPosition : Nat
  NumCopies : Nat
  Duplex : Nat
  Tumble : Nat
  HWResolution0 : Nat
  PageSize1 : Nat
  cupsMediaType : Nat
  cupsWidth : Nat
  cupsHeight : Nat
  cupsColorSpace : cups_cspace_t
  cupsCompression : Nat
  cupsBytesPerLine : Nat
  deriving DecidableEq, Repr

/-- The global variables of the filter.  `Planes plane` is the offset of the
pointer `Planes[plane]` from the start of the block `malloc`ed for the line;
`CompBuffer` is the size of the scratch block, `none` for `NULL`. -/
structure Globals where
  Planes : Nat → Nat
  CompBuffer : Option Nat
  NumPlanes : Nat
  Feed : Nat
  Duplex : Nat
  Page : Nat

/-! ## StartPage -/

/-- The `switch (header->PageSize[1])` of `StartPage`. -/
def StartPage.pageSize (PageSize1 : Nat) : List Nat :=
  if PageSize1 = 540 then str "\x1b&l80A"
  else if PageSize1 = 624 then str "\x1b&l90A"
  else if PageSize1 = 649 then str "\x1b&l91A"
  else if PageSize1 = 684 then str "\x1b&l81A"
  else if PageSize1 = 709 then str "\x1b&l100A"
  else if PageSize1 = 756 then str "\x1b&l1A"
  else if PageSize1 = 792 then str "\x1b&l2A"
  else if PageSize1 = 842 then str "\x1b&l26A"
  else if PageSize1 = 1008 then str "\x1b&l3A"
  else if PageSize1 = 1191 then str "\x1b&l27A"
  else if PageSize1 = 1224 then str "\x1b&l6A"
  else []

/-- The bytes `StartPage` prints under "Setup printer/job attributes": the
media block when `!Duplex || (Page & 1)`, the back-side switch otherwise. -/
def StartPage.attributes (header : cups_page_header_t) (Page : Nat) : List Nat :=
  if header.Duplex = 0 ∨ Page % 2 = 1 then
    str "\x1b&l6D\x1b&k12H" ++
    StartPage.pageSize header.PageSize1 ++
    (str "\x1b&l" ++ decimal (header.PageSize1 / 12) ++ str "P") ++
    str "\x1b&l0E" ++
    (str "\x1b&l" ++ decimal header.NumCopies ++ str "X") ++
    (if header.MediaPosition ≠ 0 then
      str "\x1b&l" ++ decimal header.MediaPosition ++ str "H" else []) ++
    (if header.cupsMediaType ≠ 0 then
      str "\x1b&l" ++ decimal header.cupsMediaType ++ str "M" else []) ++
    (if header.Duplex ≠ 0 then
      str "\x1b&l" ++ decimal (header.Duplex + header.Tumble) ++ str "S" else []) ++
    str "\x1b&l0L"
  else
    str "\x1b&a2G"

/-- The value `StartPage` gives `NumPlanes`. -/
def StartPage.numPlanes (header : cups_page_header_t) : Nat :=
  if header.cupsColorSpace = cups_cspace_t.CUPS_CSPACE_KCMY then 4
  else if header.cupsColorSpace = cups_cspace_t.CUPS_CSPACE_CMY then 3
  else 1

/-- The bytes `StartPage` prints under "Set graphics mode". -/
def StartPage.graphics (header : cups_page_header_t) : List Nat :=
  (str "\x1b*t" ++ decimal header.HWResolution0 ++ str "R") ++
  (str "\x1b*r" ++ decimal header.cupsWidth ++ str "S") ++
  (str "\x1b*r" ++ decimal header.cupsHeight ++ str "T") ++
  (if header.cupsColorSpace = cups_cspace_t.CUPS_CSPACE_KCMY then str "\x1b*r-4U"
   else if header.cupsColorSpace = cups_cspace_t.CUPS_CSPACE_CMY then str "\x1b*r-3U"
   else []) ++
  str "\x1b&a0H\x1b&a330V" ++
  str "\x1b*r1A" ++
  (if header.cupsCompression ≠ 0 then
    str "\x1b*b" ++ decimal header.cupsCompression ++ str "M" else [])

/-- The loop `for (plane = 1; plane < NumPlanes; plane ++) Planes[plane] =
Planes[0] + plane * header->cupsBytesPerLine / NumPlanes;`.  The first argument
counts the iterations that remain, `NumPlanes - plane`. -/
def StartPage.planes (cupsBytesPerLine NumPlanes : Nat) :
    Nat → Nat → (Nat → Nat) → (Nat → Nat)
  | 0, _, Planes => Planes
  | n + 1, plane, Planes =>
      StartPage.planes cupsBytesPerLine NumPlanes n (plane + 1)
        (Function.update Planes plane (plane * cupsBytesPerLine / NumPlanes))

/-- `StartPage(header)`: the globals it leaves and the bytes it prints. -/
def StartPage (header : cups_page_header_t) (g : Globals) : Globals × List Nat :=
  ({ Planes := StartPage.planes header.cupsBytesPerLine (StartPage.numPlanes header)
        (StartPage.numPlanes header - 1) 1 (Function.update g.Planes 0 0)
     CompBuffer :=
        if header.cupsCompression ≠ 0 then some (header.cupsBytesPerLine * 2) else none
     NumPlanes := StartPage.numPlanes header
     Feed := 0
     Duplex := header.Duplex
     Page := g.Page },
   StartPage.attributes header g.Page ++ StartPage.graphics header)

/-! ## OutputLine -/

/-- The loop `for (plane = 0; plane < NumPlanes; plane ++) CompressData(
Planes[plane], header->cupsBytesPerLine / NumPlanes, plane < (NumPlanes - 1) ?
'V' : 'W', header->cupsCompression);` over the line buffer `buf`.  The first
numeric argument counts the iterations that remain, `NumPlanes - plane`. -/
def OutputLine.planes (header : cups_page_header_t) (g : Globals) (buf : List Nat) :
    Nat → Nat → List Nat
  | 0, _ => []
  | n + 1, plane =>
      CompressData
          ((buf.drop (g.Planes plane)).take (header.cupsBytesPerLine / g.NumPlanes))
          (if plane < g.NumPlanes - 1 then 86 else 87)
          header.cupsCompression ++
        OutputLine.planes header g buf n (plane + 1)

/-- `OutputLine(header)` with the line in `buf`: the globals it leaves and the
bytes it prints. -/
def OutputLine (header : cups_page_header_t) (g : Globals) (buf : List Nat) :
    Globals × List Nat :=
  (if g.Feed > 0 then { g with Feed := 0 } else g,
   (if g.Feed > 0 then str "\x1b*b" ++ decimal g.Feed ++ str "Y" else []) ++
     OutputLine.planes header g buf g.NumPlanes 0)

/-! ## The scanline loop of `main` -/

/-- The comparison loop of `memcmp` over ranges that are long enough. -/
def memcmpLoop : List Nat → List Nat → Nat → Int
  | a :: s1, b :: s2, n + 1 => if a = b then memcmpLoop s1 s2 n else (a : Int) - (b : Int)
  | _, _, _ => 0

/-- The C library `memcmp(s1, s2, n)` on the bytes at two pointers: zero when
the first `n` bytes agree, the difference of the first two that differ
otherwise; `none` when one of the ranges has fewer than `n` bytes. -/
def memcmp (s1 s2 : List Nat) (n : Nat) : Option Int :=
  if n ≤ s1.length ∧ n ≤ s2.length then some (memcmpLoop s1 s2 n) else none

/-- The condition `Planes[0][0] || memcmp(Planes[0], Planes[0] + 1,
header.cupsBytesPerLine - 1)` of `main`, on the line buffer `buf`; `none` when
it reads outside the buffer. -/
def main.lineTest (header : cups_page_header_t) (buf : List Nat) : Option Bool :=
  match buf with
  | [] => none
  | b :: rest =>
      if b ≠ 0 then some true
      else (memcmp (b :: rest) rest (header.cupsBytesPerLine - 1)).map (fun r => decide (r ≠ 0))

/-- The body of the scanline loop of `main` after `cupsRasterReadPixels` has
filled the line buffer with `buf`: `OutputLine(&header)` when the test holds,
`Feed ++` otherwise. -/
def main.line (header : cups_page_header_t) (g : Globals) (buf : List Nat) :
    Option (Globals × List Nat) :=
  (main.lineTest header buf).map (fun drawn =>
    if drawn then OutputLine header g buf else ({ g with Feed := g.Feed + 1 }, []))

/-! ## Concrete inputs -/

/-- The globals when the program starts: every global variable of a C program
is zero-initialised. -/
def initialGlobals : Globals :=
  { Planes := fun _ => 0, CompBuffer := none, NumPlanes := 0, Feed := 0, Duplex := 0, Page := 0 }

/-- A monochrome, uncompressed, one-sided page header with lines of two bytes. -/
def exampleHeader : cups_page_header_t :=
  { MediaPosition := 0, NumCopies := 1, Duplex := 0, Tumble := 0, HWResolution0 := 300,
    PageSize1 := 792, cupsMediaType := 0, cupsWidth := 16, cupsHeight := 2,
    cupsColorSpace := cups_cspace_t.other 3, cupsCompression := 0, cupsBytesPerLine := 2 }

/-- A four-plane (KCMY) page header with pack-bits compression and lines of
eight bytes. -/
def exampleColourHeader : cups_page_header_t :=
  { MediaPosition := 0, NumCopies := 1, Duplex := 0, Tumble := 0, HWResolution0 := 300,
    PageSize1 := 842, cupsMediaType := 0, cupsWidth := 16, cupsHeight := 2,
    cupsColorSpace := cups_cspace_t.CUPS_CSPACE_KCMY, cupsCompression := 2,
    cupsBytesPerLine := 8 }

/-! ## Setup, EndPage, Shutdown, CancelJob -/

/-- `Setup()`: the PCL reset sequence, `putchar(0x1b); putchar('E');`. -/
def Setup : List Nat := [0x1b, 69]

/-- `EndPage()`: the globals it leaves and the bytes it prints.  `free` leaves
the pointers `Planes[0]` and `CompBuffer` as they are, so the globals do not
change. -/
def EndPage (g : Globals) : Globals × List Nat :=
  (g,
   if g.NumPlanes > 1 then
     str "\x1b*rC" ++ str "\x1b&l0H"
   else
     str "\x1b*r0B" ++ (if ¬ (g.Duplex ≠ 0 ∧ g.Page % 2 = 1) then str "\x0c" else []))

/-- `Shutdown()`: the PCL reset sequence, `putchar(0x1b); putchar('E');`. -/
def Shutdown : List Nat := [0x1b, 69]

/-- The end of the process by `exit(status)`: the exit status and the bytes
written to `stdout` since the point the record starts at. -/
structure Halt where
  status : Int
  stdout : List Nat
  deriving DecidableEq, Repr

/-- `CancelJob(sig)` in the state `g`: 600 times `putchar(0)`, then `EndPage()`,
`Shutdown()` and `exit(0)`.  The handler does not return. -/
def CancelJob (g : Globals) : Halt :=
  { status := 0
    stdout := List.replicate 600 0 ++ (EndPage g).2 ++ Shutdown }

/-! ## The effects of a page on the signal handler and on the heap -/

/-- The effects of `StartPage` and `EndPage` other than on the globals:
installing a disposition for `SIGTERM` (`true` for `CancelJob`, `false` for
`SIG_IGN`), writing to `stdout`, flushing it, and the calls of `malloc` and
`free` for the line buffer `Planes[0]` and for `CompBuffer`. -/
inductive Effect where
  | sigterm (cancelJob : Bool)
  | write (bytes : List Nat)
  | fflush
  | mallocPlanes (size : Nat)
  | mallocCompBuffer (size : Nat)
  | freePlanes
  | freeCompBuffer
  deriving DecidableEq, Repr

/-- The effects of `StartPage(header)` in the order of its statements: the
handler is registered first, the printer is set up, then the buffers are
allocated (`CompBuffer` only when `header->cupsCompression` is set). -/
def StartPage.effects (header : cups_page_header_t) (g : Globals) : List Effect :=
  [Effect.sigterm true,
   Effect.write (StartPage.attributes header g.Page),
   Effect.write (StartPage.graphics header),
   Effect.mallocPlanes header.cupsBytesPerLine] ++
  (if header.cupsCompression ≠ 0 then [Effect.mallocCompBuffer (header.cupsBytesPerLine * 2)]
   else [])

/-- The effects of `EndPage()` in the order of its statements: the page is
ejected, `stdout` is flushed, the handler is unregistered, then the buffers are
freed (`CompBuffer` only when it is not `NULL`). -/
def EndPage.effects (g : Globals) : List Effect :=
  [Effect.write (EndPage g).2,
   Effect.fflush,
   Effect.sigterm false,
   Effect.freePlanes] ++
  (if g.CompBuffer.isSome then [Effect.freeCompBuffer] else [])

/-- What the effects act on: whether `CancelJob` is the disposition of
`SIGTERM`, and whether `Planes[0]` and `CompBuffer` point to allocated blocks. -/
structure Resources where
  handler : Bool
  planes : Bool
  compBuffer : Bool
  deriving DecidableEq, Repr

/-- One effect on the resources. -/
def Effect.apply (r : Resources) : Effect → Resources
  | Effect.sigterm cancelJob => { r with handler := cancelJob }
  | Effect.write _ => r
  | Effect.fflush => r
  | Effect.mallocPlanes _ => { r with planes := true }
  | Effect.mallocCompBuffer _ => { r with compBuffer := true }
  | Effect.freePlanes => { r with planes := false }
  | Effect.freeCompBuffer => { r with compBuffer := false }

/-- The resources after each of the effects in turn. -/
def Effect.trace : Resources → List Effect → List Resources
  | _, [] => []
  | r, e :: es => e.apply r :: Effect.trace (e.apply r) es

/-! ## The raster source and `main` -/

/-- Modelled from the spec: a page of the raster source, which is read through
`cupsRasterReadHeader` and `cupsRasterReadPixels` (`raster.c`, not part of the
sources): the page header and the scanlines the source can deliver for the
page, in order. -/
structure RasterPage where
  header : cups_page_header_t
  lines : List (List Nat)
  deriving DecidableEq, Repr

/-- Modelled from the spec: `cupsRasterReadPixels(ras, p, len)` on the scanlines
left for the page.  The source yields fixed-length buffers: the read delivers
the next scanline and returns `len` when the source has one of `len` bytes, and
returns 0 otherwise.  The result is the return value, the bytes stored at `p`
and the scanlines left. -/
def cupsRasterReadPixels (ras : List (List Nat)) (len : Nat) :
    Nat × List Nat × List (List Nat) :=
  match ras with
  | [] => (0, [], [])
  | buf :: rest => if buf.length = len then (len, buf, rest) else (0, [], rest)

/-- The loop `for (y = 0; y < header.cupsHeight; y ++)` of `main` (without the
progress messages on `stderr`): read a line, `break` when the read returns less
than 1, otherwise run the line test.  The first argument counts the iterations
that remain, `header.cupsHeight - y`; `none` when the line test reads outside
the line buffer. -/
def main.lines (header : cups_page_header_t) :
    Nat → Globals → List (List Nat) → Option (Globals × List Nat)
  | 0, g, _ => some (g, [])
  | n + 1, g, ras =>
      if (cupsRasterReadPixels ras header.cupsBytesPerLine).1 < 1 then some (g, [])
      else
        match main.line header g (cupsRasterReadPixels ras header.cupsBytesPerLine).2.1 with
        | none => none
        | some (g', out) =>
            (main.lines header n g' (cupsRasterReadPixels ras header.cupsBytesPerLine).2.2).map
              (fun r => (r.1, out ++ r.2))

/-- The loop `while (cupsRasterReadHeader(ras, &header))` of `main`: `Page ++`,
`StartPage`, the scanline loop, `EndPage`.  `cupsRasterReadHeader` (modelled
from the spec) yields the pages of the source in order and 0 after the last. -/
def main.pages : Globals → List RasterPage → Option (Globals × List Nat)
  | g, [] => some (g, [])
  | g, page :: ras =>
      match main.lines page.header page.header.cupsHeight
          (StartPage page.header { g with Page := g.Page + 1 }).1 page.lines with
      | none => none
      | some (g', out) =>
          (main.pages (EndPage g').1 ras).map (fun r =>
            (r.1, (StartPage page.header { g with Page := g.Page + 1 }).2 ++ out ++
              (EndPage g').2 ++ r.2))

/-- `main(argc, argv)`: the exit status and the bytes written to `stdout`.
`openFails` tells whether `open(argv[6], O_RDONLY)` fails, `ras` is the raster
source read from the file or from the standard input.  Messages on `stderr`
are left out. -/
def main (argc : Int) (openFails : Bool) (ras : List RasterPage) : Option (Int × List Nat) :=
  if argc < 6 ∨ argc > 7 then some (1, [])
  else if argc = 7 ∧ openFails = true then some (1, [])
  else
    (main.pages { initialGlobals with Page := 0 } ras).map
      (fun r => (if r.1.Page = 0 then 1 else 0, Setup ++ r.2 ++ Shutdown))

/-- The scanline loop of `main` when `SIGTERM` arrives at the top of iteration
`signal` of the loop, should the loop get that far: `CancelJob` runs in the
state reached and ends the process.  The arguments after `signal` are those of
`main.lines`; the result is the end of the process, with the bytes written by
the loop before it, or the normal result of the loop. -/
def main.linesSignal (header : cups_page_header_t) :
    Nat → Nat → Globals → List (List Nat) → Option (Halt ⊕ (Globals × List Nat))
  | _, 0, g, _ => some (Sum.inr (g, []))
  | 0, _ + 1, g, _ => some (Sum.inl (CancelJob g))
  | signal + 1, n + 1, g, ras =>
      if (cupsRasterReadPixels ras header.cupsBytesPerLine).1 < 1 then some (Sum.inr (g, []))
      else
        match main.line header g (cupsRasterReadPixels ras header.cupsBytesPerLine).2.1 with
        | none => none
        | some (g', out) =>
            (main.linesSignal header signal n g'
                (cupsRasterReadPixels ras header.cupsBytesPerLine).2.2).map
              (fun r =>
                match r with
                | Sum.inl halt => Sum.inl { halt with stdout := out ++ halt.stdout }
                | Sum.inr r => Sum.inr (r.1, out ++ r.2))

/-! ## The instructions of a page -/

/-- The two kinds of instruction `OutputLine` prints: the vertical skip
`ESC*b<lines>Y`, and the plane data of one line (the bytes printed by its
`CompressData` loop). -/
inductive Instr where
  | skip (lines : Nat)
  | planes (bytes : List Nat)
  deriving DecidableEq, Repr

/-- The bytes of an instruction. -/
def Instr.bytes : Instr → List Nat
  | Instr.skip lines => str "\x1b*b" ++ decimal lines ++ str "Y"
  | Instr.planes bytes => bytes

/-- The number of lines a vertical skip moves down, 0 for plane data. -/
def Instr.skipped : Instr → Nat
  | Instr.skip lines => lines
  | Instr.planes _ => 0

/-- The number of lines plane data fills, 1, and 0 for a skip. -/
def Instr.drawn : Instr → Nat
  | Instr.skip _ => 0
  | Instr.planes _ => 1

/-- The instructions `OutputLine(header)` prints, in order. -/
def OutputLine.instrs (header : cups_page_header_t) (g : Globals) (buf : List Nat) :
    List Instr :=
  (if g.Feed > 0 then [Instr.skip g.Feed] else []) ++
    [Instr.planes (OutputLine.planes header g buf g.NumPlanes 0)]

/-- The body of the scanline loop of `main` as `main.line`, with the
instructions printed in place of their bytes. -/
def main.lineInstrs (header : cups_page_header_t) (g : Globals) (buf : List Nat) :
    Option (Globals × List Instr) :=
  (main.lineTest header buf).map (fun drawn =>
    if drawn then ((OutputLine header g buf).1, OutputLine.instrs header g buf)
    else ({ g with Feed := g.Feed + 1 }, []))

/-- The body of the scanline loop of `main` on the scanlines `bufs` in turn:
the globals it leaves and the instructions printed. -/
def main.seq (header : cups_page_header_t) :
    Globals → List (List Nat) → Option (Globals × List Instr)
  | g, [] => some (g, [])
  | g, buf :: bufs =>
      match main.lineInstrs header g buf with
      | none => none
      | some (g', instrs) =>
          (main.seq header g' bufs).map (fun r => (r.1, instrs ++ r.2))

/-- The scanlines the loop of `main` reads from the `lines` of a page: at most
`n` (the declared count), and only up to the first read that fails. -/
def linesRead (header : cups_page_header_t) (n : Nat) (lines : List (List Nat)) :
    List (List Nat) :=
  (lines.take n).takeWhile
    (fun buf => decide (buf.length = header.cupsBytesPerLine ∧ 1 ≤ header.cupsBytesPerLine))

/-- Two states of the globals that agree on everything a page reads. -/
def Agree (g1 g2 : Globals) : Prop :=
  g1.NumPlanes = g2.NumPlanes ∧ g1.Feed = g2.Feed ∧ g1.Duplex = g2.Duplex ∧
    g1.Page = g2.Page ∧ ∀ plane, plane < g1.NumPlanes → g1.Planes plane = g2.Planes plane

/-- The output of one page of a job, set up with the page number `Page` from
otherwise zero-initialised globals: the output of `StartPage`, the bytes of the
instructions of the scanlines read, the output of `EndPage`. -/
def main.pageOutput (Page : Nat) (page : RasterPage) : Option (List Nat) :=
  (main.seq page.header (StartPage page.header { initialGlobals with Page := Page }).1
      (linesRead page.header page.header.cupsHeight page.lines)).map
    (fun r => (StartPage page.header { initialGlobals with Page := Page }).2 ++
      r.2.flatMap Instr.bytes ++ (EndPage r.1).2)

/-- The number of bytes `CancelJob` writes before it calls `EndPage`. -/
def CancelJob.filler (g : Globals) : Nat :=
  (CancelJob g).stdout.length - ((EndPage g).2.length + Shutdown.length)

/-! ## Reference decoders and encodings of the specification -/

/-- Reference, from the wording of the specification: the run-length decoder,
which expands each pair `(c, v)` into `c + 1` copies of `v`; `none` when a byte
is left over. -/
def decompressRLE : List Nat → Option (List Nat)
  | [] => some []
  | [_] => none
  | c :: v :: rest => (decompressRLE rest).map (fun out => List.replicate (c + 1) v ++ out)

/-- Reference, from the wording of the specification: the standard pack-bits
decoder.  A control byte `c ≤ 127` copies the next `c + 1` bytes, a control
byte `129 ≤ c ≤ 255` repeats the next byte `257 - c` times; `none` on any other
control byte and when the data ends inside a chunk. -/
def decompressPackBits : List Nat → Option (List Nat)
  | [] => some []
  | c :: rest =>
      if c ≤ 127 then
        if c + 1 ≤ rest.length then
          (decompressPackBits (rest.drop (c + 1))).map (fun out => rest.take (c + 1) ++ out)
        else none
      else if 129 ≤ c ∧ c ≤ 255 then
        match rest with
        | [] => none
        | v :: rest' =>
            (decompressPackBits rest').map (fun out => List.replicate (257 - c) v ++ out)
      else none
termination_by data => data.length
decreasing_by
  · simp only [List.length_drop, List.length_cons]; omega
  · simp only [List.length_cons]; omega

/-- Reference, from the wording of the specification: the length of the
longest run of identical bytes at the start of the line, capped at 256. -/
def longestRun : List Nat → Nat
  | [] => 0
  | b :: rest => min (1 + (rest.takeWhile (fun y => decide (y = b))).length) 256

/-- Reference, from the wording of the specification: the left-to-right greedy
partition of the line into runs `(length, value)`, each the longest run of
identical bytes that starts at its position, capped at 256 bytes. -/
def greedyRuns : List Nat → List (Nat × Nat)
  | [] => []
  | b :: rest =>
      (longestRun (b :: rest), b) :: greedyRuns ((b :: rest).drop (longestRun (b :: rest)))
termination_by line => line.length
decreasing_by
  simp only [longestRun, List.length_drop, List.length_cons]
  omega

/-- Reference, from the wording of the specification: the pairs
`(length - 1, value)` of the greedy runs, concatenated. -/
def referenceRLE (line : List Nat) : List Nat :=
  (greedyRuns line).flatMap (fun run => [run.1 - 1, run.2])

/-- A literal chunk of pack-bits output: the control byte `count - 1`, then
`count` bytes, with `1 ≤ count ≤ 127`. -/
def IsLiteralChunk (chunk : List Nat) : Prop :=
  ∃ (count : Nat) (bytes : List Nat),
    1 ≤ count ∧ count ≤ 127 ∧ bytes.length = count ∧ chunk = (count - 1) :: bytes

/-- A repeat chunk of pack-bits output: the control byte `257 - count`, then
the repeated byte, with `2 ≤ count ≤ 127`. -/
def IsRepeatChunk (chunk : List Nat) : Prop :=
  ∃ (count v : Nat), 2 ≤ count ∧ count ≤ 127 ∧ chunk = [257 - count, v]

/-! ## Properties of the run-length branch -/

theorem rleCount_ge (b : Nat) (rest : List Nat) (c : Nat) : c ≤ rleCount b rest c := by
  induction rest generalizing c with
  | nil => simp [rleCount]
  | cons y t ih =>
      unfold rleCount
      split
      · exact Nat.le_trans (Nat.le_succ c) (ih (c + 1))
      · exact Nat.le_refl c

theorem rleCount_le (b : Nat) (rest : List Nat) (c : Nat) (hc : c ≤ 256) :
    rleCount b rest c ≤ 256 := by
  induction rest generalizing c with
  | nil => simpa [rleCount] using hc
  | cons y t ih =>
      unfold rleCount
      split
      · rename_i h
        exact ih (c + 1) (by omega)
      · exact hc

theorem rleCount_take (b : Nat) (rest : List Nat) (c : Nat) :
    rest.take (rleCount b rest c - c) = List.replicate (rleCount b rest c - c) b := by
  induction rest generalizing c with
  | nil => simp [rleCount]
  | cons y t ih =>
      unfold rleCount
      split
      · rename_i h
        have hge := rleCount_ge b t (c + 1)
        have e : rleCount b t (c + 1) - c = (rleCount b t (c + 1) - (c + 1)) + 1 := by omega
        rw [e, List.take_succ_cons, List.replicate_succ, ih (c + 1), h.1]
      · simp

theorem rleCount_length (b : Nat) (rest : List Nat) (c : Nat) :
    rleCount b rest c - c ≤ rest.length := by
  induction rest generalizing c with
  | nil => simp [rleCount]
  | cons y t ih =>
      unfold rleCount
      split
      · have := ih (c + 1)
        simp only [List.length_cons]
        omega
      · simp

theorem rleLoop_cons_take (b : Nat) (rest : List Nat) :
    (b :: rest).take (rleCount b rest 1) = List.replicate (rleCount b rest 1) b := by
  have hge := rleCount_ge b rest 1
  have e : rleCount b rest 1 = (rleCount b rest 1 - 1) + 1 := by omega
  rw [e, List.take_succ_cons, List.replicate_succ, rleCount_take]

theorem rleLoop_flatten_cons (b : Nat) (rest : List Nat) :
    (rleLoop (b :: rest)).flatten =
      (rleCount b rest 1 - 1) % 256 :: b ::
        (rleLoop ((b :: rest).drop (rleCount b rest 1))).flatten := by
  rw [rleLoop]; rfl

theorem rleLoop_decompress (L : List Nat) : decompressRLE (rleLoop L).flatten = some L := by
  induction L using rleLoop.induct with
  | case1 => simp [rleLoop, decompressRLE]
  | case2 b rest ih =>
      have hge := rleCount_ge b rest 1
      have hle := rleCount_le b rest 1 (by omega)
      have e : (rleCount b rest 1 - 1) % 256 + 1 = rleCount b rest 1 := by omega
      rw [rleLoop_flatten_cons, decompressRLE, ih, Option.map_some', e, ← rleLoop_cons_take,
        List.take_append_drop]

/-- C1: decoding the output of the run-length branch of `CompressData`, each pair
`(c, v)` expanded into `c + 1` copies of `v`, gives back the line, for every
line, the empty one included. -/
theorem rle_round_trip (L : List Nat) : decompressRLE (compressed L 1) = some L := by
  have hc : compressed L 1 = (rleLoop L).flatten := by simp [compressed]
  rw [hc, rleLoop_decompress]

theorem rleCount_eq (b : Nat) (rest : List Nat) (c : Nat) (hc : c ≤ 256) :
    rleCount b rest c = min (c + (rest.takeWhile (fun y => decide (y = b))).length) 256 := by
  induction rest generalizing c with
  | nil => simp [rleCount]; omega
  | cons y t ih =>
      unfold rleCount
      by_cases h : b = y
      · by_cases h2 : c < 256
        · rw [if_pos ⟨h, h2⟩, ih (c + 1) (by omega), List.takeWhile_cons_of_pos (by simp [h])]
          simp only [List.length_cons]
          congr 1
          omega
        · rw [if_neg (by tauto)]
          omega
      · rw [if_neg (by tauto), List.takeWhile_cons_of_neg (by simp; exact fun e => h e.symm)]
        simp
        omega

theorem rleCount_longestRun (b : Nat) (rest : List Nat) :
    rleCount b rest 1 = longestRun (b :: rest) := by
  rw [rleCount_eq b rest 1 (by omega), longestRun]

theorem rleCount_replicate (b n c : Nat) (hc : c ≤ 256) :
    rleCount b (List.replicate n b) c = min (c + n) 256 := by
  induction n generalizing c with
  | zero => simp [rleCount]; omega
  | succ n ih =>
      rw [List.replicate_succ, rleCount]
      by_cases h2 : c < 256
      · rw [if_pos ⟨rfl, h2⟩, ih (c + 1) (by omega)]
        congr 1
        omega
      · rw [if_neg (by tauto)]
        omega

theorem greedyRuns_bounds (L : List Nat) : ∀ run ∈ greedyRuns L, 1 ≤ run.1 ∧ run.1 ≤ 256 := by
  induction L using greedyRuns.induct with
  | case1 => simp [greedyRuns]
  | case2 b rest ih =>
      rw [greedyRuns]
      intro run hrun
      rcases List.mem_cons.1 hrun with h | h
      · subst h
        simp only [longestRun]
        omega
      · exact ih run h

theorem rleLoop_eq_reference (L : List Nat) : (rleLoop L).flatten = referenceRLE L := by
  induction L using rleLoop.induct with
  | case1 => simp [rleLoop, referenceRLE, greedyRuns]
  | case2 b rest ih =>
      have hle : longestRun (b :: rest) ≤ 256 := by simp only [longestRun]; omega
      have e : (longestRun (b :: rest) - 1) % 256 = longestRun (b :: rest) - 1 := by omega
      rw [rleLoop_flatten_cons, ih, rleCount_longestRun, e]
      simp only [referenceRLE]
      conv_rhs => rw [greedyRuns]
      simp

theorem referenceRLE_length (L : List Nat) :
    (referenceRLE L).length = 2 * (greedyRuns L).length := by
  simp only [referenceRLE]
  induction greedyRuns L with
  | nil => simp
  | cons r t ih => simp only [List.flatMap_cons, List.length_append, ih, List.length_cons]; simp; omega

theorem greedyRuns_expand (L : List Nat) :
    (greedyRuns L).flatMap (fun run => List.replicate run.1 run.2) = L := by
  induction L using greedyRuns.induct with
  | case1 => simp [greedyRuns]
  | case2 b rest ih =>
      rw [greedyRuns, List.flatMap_cons, ih]
      simp only
      rw [← rleCount_longestRun, ← rleLoop_cons_take, List.take_append_drop]

/-- C4: the output of the run-length branch is the reference encoding, the pairs
`(length - 1, value)` of the left-to-right greedy partition of the line into
longest runs of identical bytes capped at 256; its length is twice the number
of runs, no run is longer than 256 bytes, the runs make up the line, and 300
identical bytes `b` give `(255, b)` then `(43, b)`. -/
theorem rle_is_reference_encoding :
    (∀ L : List Nat,
      compressed L 1 = referenceRLE L ∧
      (compressed L 1).length = 2 * (greedyRuns L).length ∧
      (∀ run ∈ greedyRuns L, 1 ≤ run.1 ∧ run.1 ≤ 256) ∧
      (greedyRuns L).flatMap (fun run => List.replicate run.1 run.2) = L) ∧
    (∀ b : Nat, compressed (List.replicate 300 b) 1 = [255, b, 43, b]) := by
  have hc : ∀ L : List Nat, compressed L 1 = (rleLoop L).flatten := by
    intro L; simp [compressed]
  refine ⟨fun L => ⟨?_, ?_, greedyRuns_bounds L, greedyRuns_expand L⟩, fun b => ?_⟩
  · rw [hc, rleLoop_eq_reference]
  · rw [hc, rleLoop_eq_reference, referenceRLE_length]
  · have e1 : List.replicate 300 b = b :: List.replicate 299 b := rfl
    have e2 : List.replicate 44 b = b :: List.replicate 43 b := rfl
    rw [hc, e1, rleLoop_flatten_cons, rleCount_replicate b 299 1 (by omega), ← e1]
    simp only [List.drop_replicate]
    norm_num
    rw [e2, rleLoop_flatten_cons, rleCount_replicate b 43 1 (by omega), ← e2]
    simp [List.drop_replicate, rleLoop]

/-! ## Properties of the pack-bits branch -/

theorem repeatScan_count (b : Nat) (rest : List Nat) (c : Nat) :
    c ≤ (repeatScan b rest c).2.2 ∧ (c ≤ 127 → (repeatScan b rest c).2.2 ≤ 127) := by
  induction rest generalizing b c with
  | nil => simp [repeatScan]
  | cons y t ih =>
      unfold repeatScan
      split
      · rename_i h
        have := ih y (c + 1)
        omega
      · simp

theorem repeatScan_split (b : Nat) (rest : List Nat) (c : Nat) :
    (repeatScan b rest c).1 = b ∧
      rest = List.replicate ((repeatScan b rest c).2.2 - c) b ++ (repeatScan b rest c).2.1 := by
  induction rest generalizing b c with
  | nil => simp [repeatScan]
  | cons y t ih =>
      unfold repeatScan
      split
      · rename_i h
        obtain ⟨h1, h2⟩ := ih y (c + 1)
        have hge := (repeatScan_count y t (c + 1)).1
        have e : (repeatScan y t (c + 1)).2.2 - c = ((repeatScan y t (c + 1)).2.2 - (c + 1)) + 1 := by
          omega
        refine ⟨by rw [h1, h.1], ?_⟩
        rw [e, List.replicate_succ, List.cons_append, h.1]
        congr 1
      · simp

theorem literalScan_count (b : Nat) (rest : List Nat) (c : Nat) :
    c ≤ (literalScan b rest c).2.2 ∧ (c ≤ 127 → (literalScan b rest c).2.2 ≤ 127) ∧
      (literalScan b rest c).2.2 - c ≤ rest.length := by
  induction rest generalizing b c with
  | nil => simp [literalScan]
  | cons y t ih =>
      unfold literalScan
      split
      · rename_i h
        have := ih y (c + 1)
        simp only [List.length_cons]
        omega
      · simp

theorem literalScan_drop (b : Nat) (rest : List Nat) (c : Nat) :
    (b :: rest).drop ((literalScan b rest c).2.2 - c) =
      (literalScan b rest c).1 :: (literalScan b rest c).2.1 := by
  induction rest generalizing b c with
  | nil => simp [literalScan]
  | cons y t ih =>
      unfold literalScan
      split
      · rename_i h
        have hge := (literalScan_count y t (c + 1)).1
        have e : (literalScan y t (c + 1)).2.2 - c = ((literalScan y t (c + 1)).2.2 - (c + 1)) + 1 := by
          omega
        rw [e, List.drop_succ_cons, ih y (c + 1)]
      · simp

theorem decompressPackBits_literal (k : Nat) (lits tail : List Nat) (hk : 1 ≤ k) (hk' : k ≤ 127)
    (hl : lits.length = k) :
    decompressPackBits ((k - 1) % 256 :: (lits ++ tail)) =
      (decompressPackBits tail).map (fun out => lits ++ out) := by
  have e : (k - 1) % 256 = k - 1 := by omega
  have e2 : k - 1 + 1 = lits.length := by omega
  rw [decompressPackBits.eq_def, e]
  simp only
  rw [if_pos (by omega), if_pos (by simp; omega), e2, List.drop_left, List.take_left]

theorem decompressPackBits_repeat (k v : Nat) (tail : List Nat) (hk : 2 ≤ k) (hk' : k ≤ 127) :
    decompressPackBits ((257 - k) % 256 :: v :: tail) =
      (decompressPackBits tail).map (fun out => List.replicate k v ++ out) := by
  have e : (257 - k) % 256 = 257 - k := by omega
  have e2 : 257 - (257 - k) = k := by omega
  rw [decompressPackBits.eq_def, e]
  simp only
  rw [if_neg (by omega), if_pos (by omega), e2]

theorem packBitsLoop_decompress (L : List Nat) :
    decompressPackBits (packBitsLoop L).flatten = some L := by
  induction L using packBitsLoop.induct with
  | case1 => simp [packBitsLoop, decompressPackBits]
  | case2 b =>
      rw [packBitsLoop, packBitsLoop]
      simp [decompressPackBits]
  | case3 b rest ih =>
      rw [packBitsLoop, if_pos rfl, List.flatten_cons]
      obtain ⟨hc1, hc2⟩ := repeatScan_count b rest 2
      obtain ⟨hs1, hs2⟩ := repeatScan_split b rest 2
      have := decompressPackBits_repeat (repeatScan b rest 2).2.2 (repeatScan b rest 2).1
        (packBitsLoop (repeatScan b rest 2).2.1).flatten hc1 (hc2 (by omega))
      rw [List.cons_append, List.cons_append, List.nil_append, this, ih, Option.map_some', hs1]
      congr 1
      have e : (repeatScan b rest 2).2.2 = ((repeatScan b rest 2).2.2 - 2) + 1 + 1 := by omega
      conv_rhs => rw [hs2]
      conv_lhs => rw [e]
      simp [List.replicate_succ]
  | case4 b0 b1 rest hne ih =>
      rw [packBitsLoop, if_neg hne, List.flatten_cons]
      obtain ⟨hc1, hc2, hc3⟩ := literalScan_count b1 rest 1
      have hd := literalScan_drop b1 rest 1
      have hlen : ((b0 :: b1 :: rest).take (literalScan b1 rest 1).2.2).length =
          (literalScan b1 rest 1).2.2 := by
        simp only [List.length_take, List.length_cons]; omega
      have := decompressPackBits_literal (literalScan b1 rest 1).2.2
        ((b0 :: b1 :: rest).take (literalScan b1 rest 1).2.2)
        (packBitsLoop ((literalScan b1 rest 1).1 :: (literalScan b1 rest 1).2.1)).flatten
        hc1 (hc2 (by omega)) hlen
      have e : (literalScan b1 rest 1).2.2 = ((literalScan b1 rest 1).2.2 - 1) + 1 := by omega
      have hd' : (b0 :: b1 :: rest).drop (literalScan b1 rest 1).2.2 =
          (literalScan b1 rest 1).1 :: (literalScan b1 rest 1).2.1 := by
        conv_lhs => rw [e, List.drop_succ_cons]
        exact hd
      rw [List.cons_append, this, ih, Option.map_some', ← hd', List.take_append_drop]

/-- C2: the standard pack-bits decoder consumes the whole output of the pack-bits
branch of `CompressData` and gives back the line, for every line, the empty
one included. -/
theorem packBits_round_trip (L : List Nat) : decompressPackBits (compressed L 2) = some L := by
  have hc : compressed L 2 = (packBitsLoop L).flatten := by simp [compressed]
  rw [hc, packBitsLoop_decompress]

theorem packBitsLoop_chunks (L : List Nat) :
    ∀ chunk ∈ packBitsLoop L, IsLiteralChunk chunk ∨ IsRepeatChunk chunk := by
  induction L using packBitsLoop.induct with
  | case1 => simp [packBitsLoop]
  | case2 b =>
      rw [packBitsLoop, packBitsLoop]
      intro chunk h
      rw [List.mem_singleton] at h
      exact Or.inl ⟨1, [b], by omega, by omega, rfl, by rw [h]⟩
  | case3 b rest ih =>
      rw [packBitsLoop, if_pos rfl]
      intro chunk h
      rcases List.mem_cons.1 h with h | h
      · obtain ⟨hc1, hc2⟩ := repeatScan_count b rest 2
        have hc3 := hc2 (by omega)
        refine Or.inr ⟨(repeatScan b rest 2).2.2, (repeatScan b rest 2).1, hc1, hc3, ?_⟩
        have e : (257 - (repeatScan b rest 2).2.2) % 256 = 257 - (repeatScan b rest 2).2.2 := by
          omega
        rw [h, e]
      · exact ih chunk h
  | case4 b0 b1 rest hne ih =>
      rw [packBitsLoop, if_neg hne]
      intro chunk h
      rcases List.mem_cons.1 h with h | h
      · obtain ⟨hc1, hc2, hc3⟩ := literalScan_count b1 rest 1
        have hc4 := hc2 (by omega)
        refine Or.inl ⟨(literalScan b1 rest 1).2.2,
          (b0 :: b1 :: rest).take (literalScan b1 rest 1).2.2, hc1, hc4, ?_, ?_⟩
        · simp only [List.length_take, List.length_cons]; omega
        · have e : ((literalScan b1 rest 1).2.2 - 1) % 256 = (literalScan b1 rest 1).2.2 - 1 := by
            omega
          rw [h, e]
      · exact ih chunk h

theorem repeatScan_replicate (b n c : Nat) (hc : c ≤ 127) :
    repeatScan b (List.replicate n b) c =
      (b, List.replicate (n - (127 - c)) b, min (c + n) 127) := by
  induction n generalizing c with
  | zero => simp [repeatScan]; omega
  | succ n ih =>
      rw [List.replicate_succ, repeatScan]
      by_cases h2 : c < 127
      · rw [if_pos ⟨rfl, h2⟩, ih (c + 1) (by omega)]
        have e1 : n - (127 - (c + 1)) = n + 1 - (127 - c) := by omega
        have e2 : min (c + 1 + n) 127 = min (c + (n + 1)) 127 := by congr 1; omega
        rw [e1, e2]
      · rw [if_neg (by tauto)]
        have e1 : n + 1 - (127 - c) = n + 1 := by omega
        have e2 : min (c + (n + 1)) 127 = c := by omega
        rw [e1, e2, List.replicate_succ]

theorem packBits_130 (b : Nat) : packBitsLoop (List.replicate 130 b) = [[130, b], [254, b]] := by
  have e1 : List.replicate 130 b = b :: b :: List.replicate 128 b := rfl
  have e2 : List.replicate 3 b = b :: b :: List.replicate 1 b := rfl
  rw [e1, packBitsLoop, if_pos rfl, repeatScan_replicate b 128 2 (by omega)]
  norm_num
  rw [e2, packBitsLoop, if_pos rfl, repeatScan_replicate b 1 2 (by omega)]
  simp [packBitsLoop]

theorem control_byte_of_chunk (chunk : List Nat) (h : IsLiteralChunk chunk ∨ IsRepeatChunk chunk) :
    ∃ c tail, chunk = c :: tail ∧ (c ≤ 126 ∨ (130 ≤ c ∧ c ≤ 255)) := by
  rcases h with ⟨count, bytes, h1, h2, _, h4⟩ | ⟨count, v, h1, h2, h3⟩
  · exact ⟨count - 1, bytes, h4, Or.inl (by omega)⟩
  · exact ⟨257 - count, [v], h3, Or.inr (by omega)⟩

/-- C5: every chunk the pack-bits branch stores is a literal chunk of 1..127 bytes
with control byte `count - 1` or a repeat chunk of count 2..127 with control
byte `257 - count`; so every control byte is in 0..126 or in 130..255, never
127, 128 or 129; and 130 identical bytes `b` give the four bytes 130, b, 254, b. -/
theorem packBits_chunk_limits :
    (∀ L : List Nat,
      compressed L 2 = (packBitsLoop L).flatten ∧
      (∀ chunk ∈ packBitsLoop L, IsLiteralChunk chunk ∨ IsRepeatChunk chunk) ∧
      (∀ chunk ∈ packBitsLoop L, ∃ c tail,
        chunk = c :: tail ∧ (c ≤ 126 ∨ (130 ≤ c ∧ c ≤ 255)))) ∧
    (∀ b : Nat, packBitsLoop (List.replicate 130 b) = [[130, b], [254, b]] ∧
      compressed (List.replicate 130 b) 2 = [130, b, 254, b]) := by
  have hc : ∀ L : List Nat, compressed L 2 = (packBitsLoop L).flatten := by
    intro L; simp [compressed]
  refine ⟨fun L => ⟨hc L, packBitsLoop_chunks L, fun chunk h => ?_⟩, fun b => ?_⟩
  · exact control_byte_of_chunk chunk (packBitsLoop_chunks L chunk h)
  · refine ⟨packBits_130 b, ?_⟩
    rw [hc, packBits_130]
    rfl

/-! ## The scratch buffer -/

/-- C6: for every selector other than 1 and 2 the payload of `CompressData` is the
line unchanged and the instruction carries the length of the line in decimal. -/
theorem no_compression_identity (line : List Nat) (plane : Nat) (type : Int)
    (h1 : type ≠ 1) (h2 : type ≠ 2) :
    compressed line type = line ∧
      CompressData line plane type = str "\x1b*b" ++ decimal line.length ++ [plane] ++ line := by
  have hc : compressed line type = line := by
    unfold compressed
    rw [if_neg h1, if_neg h2]
  exact ⟨hc, by unfold CompressData; rw [hc]⟩

/-- The identity law on the line 1, 2, 3 with selector 0. -/
theorem no_compression_identity_witness :
    compressed [1, 2, 3] 0 = [1, 2, 3] ∧
      CompressData [1, 2, 3] 87 0 = [27, 42, 98, 51, 87, 1, 2, 3] :=
  ⟨(no_compression_identity [1, 2, 3] 87 0 (by decide) (by decide)).1,
    (no_compression_identity [1, 2, 3] 87 0 (by decide) (by decide)).2.trans (by decide)⟩

/-! ## Blank lines and `Feed` -/

theorem memcmpLoop_shift (b : Nat) (rest : List Nat) :
    memcmpLoop (b :: rest) rest rest.length = 0 ↔ ∀ x ∈ rest, x = b := by
  induction rest generalizing b with
  | nil => simp [memcmpLoop]
  | cons y t ih =>
      rw [List.length_cons, memcmpLoop]
      by_cases h : b = y
      · rw [if_pos h, ih y]
        subst h
        simp
      · rw [if_neg h]
        constructor
        · intro h0
          exact absurd (by omega : b = y) h
        · intro hall
          exact absurd (hall y (List.mem_cons_self _ _)).symm h

theorem lineTest_eq (header : cups_page_header_t) (buf : List Nat) (hn : buf ≠ [])
    (hw : header.cupsBytesPerLine = buf.length) :
    main.lineTest header buf = some (decide (¬ ∀ x ∈ buf, x = 0)) := by
  cases buf with
  | nil => exact absurd rfl hn
  | cons b rest =>
      unfold main.lineTest
      by_cases hb : b = 0
      · subst hb
        have hlen : header.cupsBytesPerLine - 1 = rest.length := by
          rw [hw, List.length_cons]; omega
        simp only [ne_eq, not_true_eq_false, if_false, hlen, memcmp, List.length_cons,
          Nat.le_succ, le_refl, and_self, if_true, Option.map_some']
        congr 1
        have := memcmpLoop_shift 0 rest
        simp only [List.mem_cons, forall_eq_or_imp, true_and]
        rw [decide_eq_decide]
        rw [this]
      · simp [hb]

/-- C7: on a line of at least one byte the test of `main` takes the blank branch
(`Feed ++`) exactly when every byte of the line is zero. -/
theorem blank_line_test (header : cups_page_header_t) (buf : List Nat) (hn : 1 ≤ buf.length)
    (hw : header.cupsBytesPerLine = buf.length) :
    (main.lineTest header buf = some false ↔ ∀ x ∈ buf, x = 0) ∧
    (main.lineTest header buf = some true ↔ ∃ x ∈ buf, x ≠ 0) ∧
    ∀ g : Globals, main.line header g buf =
      some (if ∀ x ∈ buf, x = 0 then ({ g with Feed := g.Feed + 1 }, [])
        else OutputLine header g buf) := by
  have hne : buf ≠ [] := by intro h; rw [h] at hn; simp at hn
  have h := lineTest_eq header buf hne hw
  refine ⟨?_, ?_, fun g => ?_⟩
  · rw [h]; simp
  · rw [h]; simp
  · unfold main.line
    rw [h, Option.map_some']
    by_cases hz : ∀ x ∈ buf, x = 0
    · rw [decide_eq_false (not_not.2 hz), if_pos hz]
      rfl
    · rw [decide_eq_true hz, if_neg hz]
      rfl

/-- The blank-line test on a line of two zero bytes and on a line with a
non-zero second byte. -/
theorem blank_line_test_witness :
    main.lineTest exampleHeader [0, 0] = some false ∧
      main.lineTest exampleHeader [0, 7] = some true :=
  ⟨(blank_line_test exampleHeader [0, 0] (by decide) (by decide)).1.2 (by decide),
    (blank_line_test exampleHeader [0, 7] (by decide) (by decide)).2.1.2 (by decide)⟩

theorem OutputLine_feed_zero (header : cups_page_header_t) (g : Globals) (buf : List Nat) :
    (OutputLine header g buf).1 = { g with Feed := 0 } := by
  unfold OutputLine
  by_cases h : g.Feed > 0
  · rw [if_pos h]
  · rw [if_neg h]
    have : g.Feed = 0 := by omega
    cases g
    simp only at this
    subst this
    rfl

/-- C8: `Feed` is 0 right after `StartPage`; from a state with `Feed = k`, an
all-zero line prints nothing and leaves `Feed = k + 1`, and any other line
prints the single skip instruction `ESC*b<k>Y` when `k > 0` (nothing when
`k = 0`), then the plane data, and leaves `Feed = 0`. -/
theorem feed_step (header : cups_page_header_t) (g : Globals) (buf : List Nat) (hn : buf ≠ [])
    (hw : header.cupsBytesPerLine = buf.length) :
    (StartPage header g).1.Feed = 0 ∧
    main.line header g buf =
      some (if ∀ x ∈ buf, x = 0 then ({ g with Feed := g.Feed + 1 }, [])
        else ({ g with Feed := 0 },
          (if g.Feed > 0 then str "\x1b*b" ++ decimal g.Feed ++ str "Y" else []) ++
            OutputLine.planes header g buf g.NumPlanes 0)) := by
  refine ⟨rfl, ?_⟩
  unfold main.line
  rw [lineTest_eq header buf hn hw, Option.map_some']
  by_cases hz : ∀ x ∈ buf, x = 0
  · rw [decide_eq_false (not_not.2 hz), if_pos hz]
    rfl
  · rw [decide_eq_true hz, if_neg hz, if_pos rfl]
    congr 1
    exact Prod.ext (OutputLine_feed_zero header g buf) rfl

/-- The step of `Feed` with five blank lines pending: on a blank two-byte line,
and on a line that prints `ESC*b5Y` before its plane data `ESC*b2W`, 0, 255. -/
theorem feed_step_witness :
    (main.line exampleHeader { (StartPage exampleHeader initialGlobals).1 with Feed := 5 }
        [0, 0]).map (fun r => (r.1.Feed, r.2)) = some (6, []) ∧
    (main.line exampleHeader { (StartPage exampleHeader initialGlobals).1 with Feed := 5 }
        [0, 255]).map (fun r => (r.1.Feed, r.2)) =
      some (0, [27, 42, 98, 53, 89, 27, 42, 98, 50, 87, 0, 255]) :=
  ⟨by
    rw [(feed_step exampleHeader { (StartPage exampleHeader initialGlobals).1 with Feed := 5 }
      [0, 0] (by decide) (by decide)).2]
    decide,
   by
    rw [(feed_step exampleHeader { (StartPage exampleHeader initialGlobals).1 with Feed := 5 }
      [0, 255] (by decide) (by decide)).2]
    decide⟩

/-! ## Planes -/

theorem StartPage_numPlanes_cases (header : cups_page_header_t) :
    StartPage.numPlanes header = 1 ∨ StartPage.numPlanes header = 3 ∨
      StartPage.numPlanes header = 4 := by
  unfold StartPage.numPlanes
  split
  · exact Or.inr (Or.inr rfl)
  · split
    · exact Or.inr (Or.inl rfl)
    · exact Or.inl rfl

theorem StartPage_planes (header : cups_page_header_t) (g : Globals) (plane : Nat)
    (hp : plane < StartPage.numPlanes header) :
    (StartPage header g).1.Planes plane =
      plane * header.cupsBytesPerLine / StartPage.numPlanes header := by
  simp only [StartPage]
  rcases StartPage_numPlanes_cases header with h | h | h <;> rw [h] at hp ⊢ <;>
    interval_cases plane <;> simp [StartPage.planes, Function.update]

theorem OutputLine_planes_eq (header : cups_page_header_t) (g : Globals) (buf : List Nat)
    (n plane : Nat) :
    OutputLine.planes header g buf n plane =
      ((List.range' plane n).map (fun p =>
        CompressData
          ((buf.drop (g.Planes p)).take (header.cupsBytesPerLine / g.NumPlanes))
          (if p < g.NumPlanes - 1 then 86 else 87) header.cupsCompression)).flatten := by
  induction n generalizing plane with
  | zero => simp [OutputLine.planes]
  | succ n ih =>
      rw [OutputLine.planes, ih (plane + 1), List.range'_succ, List.map_cons, List.flatten_cons]

/-- C10: `StartPage` sets the plane count to 4 for KCMY, 3 for CMY and 1 for any
other colour space; `OutputLine` prints, after the optional skip, one
plane-data instruction per plane in the order 0..NumPlanes-1, each
`ESC*b<decimal payload length><tag>` followed by the payload, with tag `V` (86)
for every plane but the last and `W` (87) for the last. -/
theorem plane_count_and_framing (header : cups_page_header_t) (g : Globals) (buf : List Nat) :
    (StartPage header g).1.NumPlanes =
      (match header.cupsColorSpace with
        | cups_cspace_t.CUPS_CSPACE_KCMY => 4
        | cups_cspace_t.CUPS_CSPACE_CMY => 3
        | cups_cspace_t.other _ => 1) ∧
    ((StartPage header g).1.NumPlanes = 1 ∨ (StartPage header g).1.NumPlanes = 3 ∨
      (StartPage header g).1.NumPlanes = 4) ∧
    (OutputLine header g buf).2 =
      (if g.Feed > 0 then str "\x1b*b" ++ decimal g.Feed ++ str "Y" else []) ++
        ((List.range g.NumPlanes).map (fun plane =>
          str "\x1b*b" ++
            decimal (compressed
              ((buf.drop (g.Planes plane)).take (header.cupsBytesPerLine / g.NumPlanes))
              header.cupsCompression).length ++
            [if plane = g.NumPlanes - 1 then 87 else 86] ++
            compressed
              ((buf.drop (g.Planes plane)).take (header.cupsBytesPerLine / g.NumPlanes))
              header.cupsCompression)).flatten ∧
    ((List.range g.NumPlanes).map (fun plane =>
          str "\x1b*b" ++
            decimal (compressed
              ((buf.drop (g.Planes plane)).take (header.cupsBytesPerLine / g.NumPlanes))
              header.cupsCompression).length ++
            [if plane = g.NumPlanes - 1 then 87 else 86] ++
            compressed
              ((buf.drop (g.Planes plane)).take (header.cupsBytesPerLine / g.NumPlanes))
              header.cupsCompression)).length = g.NumPlanes := by
  refine ⟨?_, StartPage_numPlanes_cases header, ?_, by simp⟩
  · show StartPage.numPlanes header = _
    unfold StartPage.numPlanes
    cases header.cupsColorSpace <;> simp
  · unfold OutputLine
    simp only
    rw [OutputLine_planes_eq, ← List.range_eq_range']
    congr 2
    apply List.map_congr_left
    intro plane hp
    rw [List.mem_range] at hp
    unfold CompressData
    have e : (if plane < g.NumPlanes - 1 then 86 else 87) =
        (if plane = g.NumPlanes - 1 then 87 else 86) := by
      by_cases h : plane = g.NumPlanes - 1
      · rw [if_pos h, if_neg (by omega)]
      · rw [if_neg h, if_pos (by omega)]
    rw [e]

/-! ## Pages and jobs -/

theorem OutputLine_instrs_bytes (header : cups_page_header_t) (g : Globals) (buf : List Nat) :
    (OutputLine header g buf).2 = (OutputLine.instrs header g buf).flatMap Instr.bytes := by
  unfold OutputLine OutputLine.instrs
  by_cases h : g.Feed > 0
  · simp [h, Instr.bytes]
  · simp [h, Instr.bytes]

theorem main_line_instrs (header : cups_page_header_t) (g : Globals) (buf : List Nat) :
    main.line header g buf =
      (main.lineInstrs header g buf).map (fun r => (r.1, r.2.flatMap Instr.bytes)) := by
  unfold main.line main.lineInstrs
  cases main.lineTest header buf with
  | none => rfl
  | some drawn =>
      cases drawn with
      | false => rfl
      | true =>
          simp only [Option.map_some', if_true]
          rw [← OutputLine_instrs_bytes]

theorem main_lineInstrs_eq (header : cups_page_header_t) (g : Globals) (buf : List Nat)
    (hlen : buf.length = header.cupsBytesPerLine) (hw : 1 ≤ header.cupsBytesPerLine) :
    main.lineInstrs header g buf =
      some (if ∀ x ∈ buf, x = 0 then ({ g with Feed := g.Feed + 1 }, [])
        else ({ g with Feed := 0 }, OutputLine.instrs header g buf)) := by
  have hn : buf ≠ [] := by
    intro h; rw [h] at hlen; simp at hlen; omega
  unfold main.lineInstrs
  rw [lineTest_eq header buf hn hlen.symm, Option.map_some']
  by_cases hz : ∀ x ∈ buf, x = 0
  · rw [decide_eq_false (not_not.2 hz), if_pos hz]
    rfl
  · rw [decide_eq_true hz, if_neg hz, if_pos rfl, OutputLine_feed_zero]

theorem linesRead_mem (header : cups_page_header_t) (n : Nat) (lines : List (List Nat)) :
    ∀ buf ∈ linesRead header n lines,
      buf.length = header.cupsBytesPerLine ∧ 1 ≤ header.cupsBytesPerLine := by
  intro buf hb
  have := List.mem_takeWhile_imp hb
  simpa using this

theorem linesRead_zero (header : cups_page_header_t) (lines : List (List Nat)) :
    linesRead header 0 lines = [] := by
  simp [linesRead]

theorem linesRead_nil (header : cups_page_header_t) (n : Nat) :
    linesRead header n [] = [] := by
  simp [linesRead]

theorem linesRead_cons (header : cups_page_header_t) (n : Nat) (buf : List Nat)
    (rest : List (List Nat)) :
    linesRead header (n + 1) (buf :: rest) =
      if buf.length = header.cupsBytesPerLine ∧ 1 ≤ header.cupsBytesPerLine then
        buf :: linesRead header n rest
      else [] := by
  unfold linesRead
  rw [List.take_succ_cons, List.takeWhile_cons]
  by_cases h : buf.length = header.cupsBytesPerLine ∧ 1 ≤ header.cupsBytesPerLine
  · simp [h]
  · simp [h]

theorem main_lines_seq (header : cups_page_header_t) (n : Nat) (g : Globals)
    (lines : List (List Nat)) :
    main.lines header n g lines =
      (main.seq header g (linesRead header n lines)).map
        (fun r => (r.1, r.2.flatMap Instr.bytes)) := by
  induction n generalizing g lines with
  | zero => simp [main.lines, linesRead_zero, main.seq]
  | succ n ih =>
      cases lines with
      | nil => simp [main.lines, linesRead_nil, main.seq, cupsRasterReadPixels]
      | cons buf rest =>
          rw [main.lines, linesRead_cons]
          by_cases h1 : buf.length = header.cupsBytesPerLine
          · by_cases h2 : 1 ≤ header.cupsBytesPerLine
            · have hr : cupsRasterReadPixels (buf :: rest) header.cupsBytesPerLine =
                  (header.cupsBytesPerLine, buf, rest) := by
                simp [cupsRasterReadPixels, h1]
              rw [hr, if_neg (by simp only; omega), if_pos ⟨h1, h2⟩, main.seq, main_line_instrs]
              simp only
              cases main.lineInstrs header g buf with
              | none => rfl
              | some r =>
                  obtain ⟨g', instrs⟩ := r
                  simp only [Option.map_some']
                  rw [ih]
                  cases main.seq header g' (linesRead header n rest) with
                  | none => rfl
                  | some r2 => simp
            · have hr : (cupsRasterReadPixels (buf :: rest) header.cupsBytesPerLine).1 < 1 := by
                simp [cupsRasterReadPixels, h1]; omega
              rw [if_pos hr, if_neg (by tauto)]
              rfl
          · have hr : (cupsRasterReadPixels (buf :: rest) header.cupsBytesPerLine).1 < 1 := by
              simp [cupsRasterReadPixels, h1]
            rw [if_pos hr, if_neg (by tauto)]
            rfl

theorem OutputLine_planes_agree (header : cups_page_header_t) (g1 g2 : Globals)
    (buf : List Nat) (h : Agree g1 g2) :
    OutputLine.planes header g1 buf g1.NumPlanes 0 =
      OutputLine.planes header g2 buf g2.NumPlanes 0 := by
  obtain ⟨hN, _, _, _, hP⟩ := h
  rw [OutputLine_planes_eq, OutputLine_planes_eq, ← hN]
  congr 1
  apply List.map_congr_left
  intro plane hp
  rw [List.mem_range'_1] at hp
  rw [hP plane (by omega)]

theorem OutputLine_instrs_agree (header : cups_page_header_t) (g1 g2 : Globals)
    (buf : List Nat) (h : Agree g1 g2) :
    OutputLine.instrs header g1 buf = OutputLine.instrs header g2 buf := by
  unfold OutputLine.instrs
  rw [OutputLine_planes_agree header g1 g2 buf h, h.2.1]

theorem main_seq_agree (header : cups_page_header_t) (bufs : List (List Nat))
    (hwf : ∀ buf ∈ bufs, buf.length = header.cupsBytesPerLine ∧ 1 ≤ header.cupsBytesPerLine)
    (g1 g2 : Globals) (h : Agree g1 g2) :
    ∃ g1' g2' instrs, main.seq header g1 bufs = some (g1', instrs) ∧
      main.seq header g2 bufs = some (g2', instrs) ∧ Agree g1' g2' := by
  induction bufs generalizing g1 g2 with
  | nil => exact ⟨g1, g2, [], rfl, rfl, h⟩
  | cons buf rest ih =>
      obtain ⟨hl, hw⟩ := hwf buf (List.mem_cons_self _ _)
      have hrest : ∀ b ∈ rest, b.length = header.cupsBytesPerLine ∧
          1 ≤ header.cupsBytesPerLine := fun b hb => hwf b (List.mem_cons_of_mem _ hb)
      rw [main.seq, main.seq, main_lineInstrs_eq header g1 buf hl hw,
        main_lineInstrs_eq header g2 buf hl hw]
      obtain ⟨hN, hF, hD, hPg, hP⟩ := h
      by_cases hz : ∀ x ∈ buf, x = 0
      · simp only [if_pos hz]
        obtain ⟨g1', g2', instrs, e1, e2, ha⟩ :=
          ih hrest { g1 with Feed := g1.Feed + 1 } { g2 with Feed := g2.Feed + 1 }
            ⟨hN, by simp only [hF], hD, hPg, hP⟩
        exact ⟨g1', g2', [] ++ instrs, by rw [e1]; rfl, by rw [e2]; rfl, ha⟩
      · simp only [if_neg hz]
        obtain ⟨g1', g2', instrs, e1, e2, ha⟩ :=
          ih hrest { g1 with Feed := 0 } { g2 with Feed := 0 } ⟨hN, rfl, hD, hPg, hP⟩
        refine ⟨g1', g2', OutputLine.instrs header g1 buf ++ instrs, by rw [e1]; rfl, ?_, ha⟩
        rw [e2, OutputLine_instrs_agree header g1 g2 buf ⟨hN, hF, hD, hPg, hP⟩]
        rfl

theorem main_seq_fields (header : cups_page_header_t) (bufs : List (List Nat))
    (g g' : Globals) (instrs : List Instr) (h : main.seq header g bufs = some (g', instrs)) :
    g'.NumPlanes = g.NumPlanes ∧ g'.Duplex = g.Duplex ∧ g'.Page = g.Page ∧
      g'.Planes = g.Planes ∧ g'.CompBuffer = g.CompBuffer := by
  induction bufs generalizing g g' instrs with
  | nil =>
      simp only [main.seq, Option.some.injEq, Prod.mk.injEq] at h
      rw [← h.1]
      exact ⟨rfl, rfl, rfl, rfl, rfl⟩
  | cons buf rest ih =>
      rw [main.seq] at h
      cases hl : main.lineInstrs header g buf with
      | none => rw [hl] at h; simp at h
      | some r =>
          obtain ⟨g1, i1⟩ := r
          rw [hl] at h
          simp only at h
          cases hs : main.seq header g1 rest with
          | none => rw [hs] at h; simp at h
          | some r2 =>
              obtain ⟨g2, i2⟩ := r2
              rw [hs] at h
              simp only [Option.map_some', Option.some.injEq, Prod.mk.injEq] at h
              have := ih g1 g2 i2 hs
              rw [← h.1]
              have h1 : g1.NumPlanes = g.NumPlanes ∧ g1.Duplex = g.Duplex ∧ g1.Page = g.Page ∧
                  g1.Planes = g.Planes ∧ g1.CompBuffer = g.CompBuffer := by
                unfold main.lineInstrs at hl
                cases ht : main.lineTest header buf with
                | none => rw [ht] at hl; simp at hl
                | some drawn =>
                    rw [ht] at hl
                    simp only [Option.map_some', Option.some.injEq] at hl
                    cases drawn with
                    | false =>
                        simp only [Bool.false_eq_true, if_false, Prod.mk.injEq] at hl
                        rw [← hl.1]
                        exact ⟨rfl, rfl, rfl, rfl, rfl⟩
                    | true =>
                        simp only [if_true, Prod.mk.injEq] at hl
                        rw [← hl.1, OutputLine_feed_zero]
                        exact ⟨rfl, rfl, rfl, rfl, rfl⟩
              obtain ⟨a1, a2, a3, a4, a5⟩ := this
              obtain ⟨b1, b2, b3, b4, b5⟩ := h1
              exact ⟨a1.trans b1, a2.trans b2, a3.trans b3, a4.trans b4, a5.trans b5⟩

theorem StartPage_agree (header : cups_page_header_t) (g1 g2 : Globals)
    (h : g1.Page = g2.Page) :
    (StartPage header g1).2 = (StartPage header g2).2 ∧
      Agree (StartPage header g1).1 (StartPage header g2).1 := by
  refine ⟨by simp only [StartPage, h], rfl, rfl, rfl, h, ?_⟩
  intro plane hp
  rw [StartPage_planes header g1 plane hp, StartPage_planes header g2 plane hp]

theorem EndPage_agree (g1 g2 : Globals) (h : Agree g1 g2) :
    (EndPage g1).2 = (EndPage g2).2 := by
  obtain ⟨hN, _, hD, hP, _⟩ := h
  simp only [EndPage, hN, hD, hP]

theorem main_pages_structure (ras : List RasterPage) (g : Globals) :
    ∃ (g' : Globals) (outs : List (List Nat)),
      main.pages g ras = some (g', outs.flatten) ∧ g'.Page = g.Page + ras.length ∧
      List.Forall₂ (fun (p : Nat × RasterPage) out => main.pageOutput (p.1 + 1) p.2 = some out)
        (ras.enumFrom g.Page) outs := by
  induction ras generalizing g with
  | nil => exact ⟨g, [], rfl, rfl, List.Forall₂.nil⟩
  | cons page rest ih =>
      have hwf := linesRead_mem page.header page.header.cupsHeight page.lines
      obtain ⟨hout, hag⟩ := StartPage_agree page.header { g with Page := g.Page + 1 }
        { initialGlobals with Page := g.Page + 1 } rfl
      obtain ⟨g1, g2, instrs, e1, e2, ha⟩ := main_seq_agree page.header _ hwf _ _ hag
      obtain ⟨g', outs, e3, hpage, hall⟩ := ih (EndPage g1).1
      have hf := main_seq_fields page.header _ _ _ _ e1
      refine ⟨g', ((StartPage page.header { g with Page := g.Page + 1 }).2 ++
        instrs.flatMap Instr.bytes ++ (EndPage g1).2) :: outs, ?_, ?_, ?_⟩
      · rw [main.pages, main_lines_seq, e1]
        simp only [Option.map_some']
        rw [e3]
        simp only [Option.map_some', List.flatten_cons, List.append_assoc]
      · rw [hpage]
        show g1.Page + rest.length = g.Page + (rest.length + 1)
        rw [hf.2.2.1]
        show g.Page + 1 + rest.length = g.Page + (rest.length + 1)
        omega
      · rw [List.enumFrom_cons]
        refine List.Forall₂.cons ?_ ?_
        · show main.pageOutput (g.Page + 1) page = some _
          unfold main.pageOutput
          rw [e2, Option.map_some', ← hout, EndPage_agree g1 g2 ha]
        · have hp : (EndPage g1).1.Page = g.Page + 1 := by
            show g1.Page = g.Page + 1
            rw [hf.2.2.1]
            rfl
          rw [hp] at hall
          exact hall

theorem main_eq (argc : Int) (openFails : Bool) (ras : List RasterPage)
    (hargc : 6 ≤ argc ∧ argc ≤ 7) (hopen : ¬ (argc = 7 ∧ openFails = true)) :
    ∃ outs : List (List Nat),
      main argc openFails ras =
        some (if ras = [] then 1 else 0, Setup ++ outs.flatten ++ Shutdown) ∧
      List.Forall₂ (fun (p : Nat × RasterPage) out => main.pageOutput (p.1 + 1) p.2 = some out)
        ras.enum outs := by
  obtain ⟨g', outs, e, hpage, hall⟩ := main_pages_structure ras { initialGlobals with Page := 0 }
  refine ⟨outs, ?_, hall⟩
  unfold main
  rw [if_neg (by omega), if_neg hopen, e, Option.map_some']
  have hp : g'.Page = ras.length := by rw [hpage]; show 0 + ras.length = ras.length; omega
  congr 2
  by_cases hr : ras = []
  · rw [if_pos hr, if_pos (by rw [hp, hr]; rfl)]
  · rw [if_neg hr, if_neg (by rw [hp]; exact fun h => hr (List.length_eq_zero.1 h))]

/-- C11: in every state `EndPage` prints exactly `ESC*rC` then `ESC&l0H` when the
plane count is greater than 1; otherwise (plane count 1) it prints `ESC*r0B`,
followed by a form feed (12) unless duplex is active and the page number is
odd, in which case nothing follows. -/
theorem page_teardown_output (g : Globals) :
    (EndPage g).2 =
      if g.NumPlanes > 1 then [27, 42, 114, 67] ++ [27, 38, 108, 48, 72]
      else [27, 42, 114, 48, 66] ++ (if g.Duplex ≠ 0 ∧ g.Page % 2 = 1 then [] else [12]) := by
  unfold EndPage
  by_cases h : g.NumPlanes > 1
  · simp only [if_pos h]
    decide
  · simp only [if_neg h]
    by_cases h2 : g.Duplex ≠ 0 ∧ g.Page % 2 = 1
    · rw [if_neg (fun hn => hn h2), if_pos h2]
      decide
    · rw [if_pos h2, if_neg h2]
      decide

/-- C13: with valid arguments (six or seven, and a raster file that opens),
`main` returns 1 when the raster source yields no page header and 0 otherwise;
with no header the output is exactly the four bytes `ESC E ESC E`. -/
theorem job_status (argc : Int) (openFails : Bool) (ras : List RasterPage)
    (hargc : 6 ≤ argc ∧ argc ≤ 7) (hopen : ¬ (argc = 7 ∧ openFails = true)) :
    ∃ out : List Nat,
      main argc openFails ras = some (if ras = [] then 1 else 0, out) ∧
      (ras = [] → out = [27, 69, 27, 69]) := by
  obtain ⟨outs, e, hall⟩ := main_eq argc openFails ras hargc hopen
  refine ⟨_, e, ?_⟩
  intro hr
  rw [hr] at hall
  cases hall
  rfl

/-- The empty job run with six arguments. -/
theorem job_status_witness :
    ∃ out : List Nat,
      main 6 false [] = some (if ([] : List RasterPage) = [] then 1 else 0, out) ∧
      (([] : List RasterPage) = [] → out = [27, 69, 27, 69]) :=
  job_status 6 false [] (by decide) (by decide)

theorem main_line_eq (header : cups_page_header_t) (g : Globals) (buf : List Nat)
    (hlen : buf.length = header.cupsBytesPerLine) (hw : 1 ≤ header.cupsBytesPerLine) :
    ∃ r, main.line header g buf = some r := by
  rw [main_line_instrs, main_lineInstrs_eq header g buf hlen hw]
  exact ⟨_, rfl⟩

/-- C15: in every state `CancelJob` writes 600 NUL bytes, then the output of
`EndPage` in that state, then `ESC E`, and ends the process with status 0; when
the signal arrives at the top of a scanline iteration, the process ends with the
output of the lines before it followed by that sequence, whatever scanlines
(`post`) the source still holds: none of them is read or printed. -/
theorem cancel_sequence (header : cups_page_header_t) (g : Globals)
    (pre post : List (List Nat)) (n : Nat) (hw : 1 ≤ header.cupsBytesPerLine)
    (hpre : ∀ buf ∈ pre, buf.length = header.cupsBytesPerLine) (hn : pre.length < n) :
    (∀ g : Globals, CancelJob g =
      { status := 0, stdout := List.replicate 600 0 ++ (EndPage g).2 ++ [27, 69] }) ∧
    ∃ (g' : Globals) (out : List Nat),
      main.lines header pre.length g pre = some (g', out) ∧
      main.linesSignal header pre.length n g (pre ++ post) =
        some (Sum.inl { status := 0,
                        stdout := out ++ (List.replicate 600 0 ++ (EndPage g').2 ++ [27, 69]) }) := by
  refine ⟨fun _ => rfl, ?_⟩
  induction pre generalizing g n with
  | nil =>
      cases n with
      | zero => simp at hn
      | succ m => exact ⟨g, [], rfl, rfl⟩
  | cons buf rest ih =>
      cases n with
      | zero => simp at hn
      | succ m =>
          have hl := hpre buf (List.mem_cons_self _ _)
          have hr : ∀ rest', cupsRasterReadPixels (buf :: rest') header.cupsBytesPerLine =
              (header.cupsBytesPerLine, buf, rest') := by
            intro rest'; simp [cupsRasterReadPixels, hl]
          obtain ⟨r, e⟩ := main_line_eq header g buf hl hw
          obtain ⟨g1, out1⟩ := r
          obtain ⟨g', out, e1, e2⟩ := ih g1 m (fun b hb => hpre b (List.mem_cons_of_mem _ hb))
            (by simp only [List.length_cons] at hn; omega)
          refine ⟨g', out1 ++ out, ?_, ?_⟩
          · rw [List.length_cons, main.lines, hr, if_neg (by simp only; omega)]
            simp only [e, e1, Option.map_some']
          · rw [List.length_cons, List.cons_append, main.linesSignal, hr,
              if_neg (by simp only; omega)]
            simp only [e, e2, Option.map_some', List.append_assoc]

/-- Cancellation after one blank line of a two-line page. -/
theorem cancel_sequence_witness :
    main.linesSignal exampleHeader 1 2 (StartPage exampleHeader initialGlobals).1
        [[0, 0], [255, 255]] =
      some (Sum.inl { status := 0,
                      stdout := List.replicate 600 0 ++ [27, 42, 114, 48, 66, 12] ++ [27, 69] }) := by
  obtain ⟨g', out, e1, e2⟩ := (cancel_sequence exampleHeader
    (StartPage exampleHeader initialGlobals).1 [[0, 0]] [[255, 255]] 2 (by decide) (by decide)
    (by decide)).2
  have e3 : main.lines exampleHeader 1 (StartPage exampleHeader initialGlobals).1 [[0, 0]] =
      some ({ (StartPage exampleHeader initialGlobals).1 with Feed := 1 }, []) := by
    rfl
  rw [show [[0, 0]].length = 1 from rfl] at e1 e2
  rw [e3] at e1
  simp only [Option.some.injEq, Prod.mk.injEq] at e1
  rw [← e1.1, ← e1.2] at e2
  exact e2.trans rfl

theorem main_seq_append (header : cups_page_header_t) (a b : List (List Nat)) (g : Globals) :
    main.seq header g (a ++ b) =
      (main.seq header g a).bind (fun r =>
        (main.seq header r.1 b).map (fun r2 => (r2.1, r.2 ++ r2.2))) := by
  induction a generalizing g with
  | nil =>
      simp only [List.nil_append, main.seq, Option.some_bind]
      cases main.seq header g b with
      | none => rfl
      | some r => simp
  | cons buf rest ih =>
      rw [List.cons_append, main.seq, main.seq]
      cases main.lineInstrs header g buf with
      | none => rfl
      | some r =>
          obtain ⟨g1, i1⟩ := r
          simp only
          rw [ih]
          cases main.seq header g1 rest with
          | none => rfl
          | some r2 =>
              simp only [Option.some_bind, Option.map_some']
              cases main.seq header r2.1 b with
              | none => rfl
              | some r3 => simp

theorem main_seq_position (header : cups_page_header_t) (bufs : List (List Nat))
    (hw : 1 ≤ header.cupsBytesPerLine)
    (hwf : ∀ buf ∈ bufs, buf.length = header.cupsBytesPerLine) (g : Globals) :
    ∃ (g' : Globals) (instrs : List Instr),
      main.seq header g bufs = some (g', instrs) ∧
      (instrs.map Instr.skipped).sum + (instrs.map Instr.drawn).sum + g'.Feed =
        bufs.length + g.Feed := by
  induction bufs generalizing g with
  | nil => exact ⟨g, [], rfl, by simp⟩
  | cons buf rest ih =>
      have hl := hwf buf (List.mem_cons_self _ _)
      have hrest : ∀ b ∈ rest, b.length = header.cupsBytesPerLine :=
        fun b hb => hwf b (List.mem_cons_of_mem _ hb)
      rw [main.seq, main_lineInstrs_eq header g buf hl hw]
      by_cases hz : ∀ x ∈ buf, x = 0
      · obtain ⟨g', instrs, e, hpos⟩ := ih hrest { g with Feed := g.Feed + 1 }
        refine ⟨g', instrs, by simp only [if_pos hz, e, Option.map_some', List.nil_append], ?_⟩
        simp only [List.length_cons] at hpos ⊢
        omega
      · obtain ⟨g', instrs, e, hpos⟩ := ih hrest { g with Feed := 0 }
        refine ⟨g', OutputLine.instrs header g buf ++ instrs,
          by simp only [if_neg hz, e, Option.map_some'], ?_⟩
        simp only [List.length_cons, OutputLine.instrs, List.map_append, List.sum_append] at hpos ⊢
        by_cases hf : g.Feed > 0
        · simp only [if_pos hf, List.map_cons, List.map_nil, List.sum_cons, List.sum_nil,
            Instr.skipped, Instr.drawn]
          omega
        · simp only [if_neg hf, List.map_cons, List.map_nil, List.sum_cons, List.sum_nil,
            Instr.skipped, Instr.drawn]
          omega

theorem main_seq_blank (header : cups_page_header_t) (blanks : List (List Nat))
    (hw : 1 ≤ header.cupsBytesPerLine)
    (hwf : ∀ buf ∈ blanks, buf.length = header.cupsBytesPerLine)
    (hz : ∀ buf ∈ blanks, ∀ x ∈ buf, x = 0) (g : Globals) :
    ∃ g' : Globals, main.seq header g blanks = some (g', []) := by
  induction blanks generalizing g with
  | nil => exact ⟨g, rfl⟩
  | cons buf rest ih =>
      rw [main.seq, main_lineInstrs_eq header g buf (hwf buf (List.mem_cons_self _ _)) hw,
        if_pos (hz buf (List.mem_cons_self _ _))]
      obtain ⟨g', e⟩ := ih (fun b hb => hwf b (List.mem_cons_of_mem _ hb))
        (fun b hb => hz b (List.mem_cons_of_mem _ hb)) { g with Feed := g.Feed + 1 }
      exact ⟨g', by simp only [e, Option.map_some', List.nil_append]⟩

/-- C19: the bytes the scanline loop prints are those of the instructions of the
scanlines read; for a scanline `buf` with a non-zero byte at index `pre.length`
of a page, the skip parameters of the instructions before its plane data
(its own skip included) plus the number of plane-data instructions before it
add up to `pre.length`; the blank lines after the last such line, and the lines
of an all-blank page, print nothing. -/
theorem vertical_position (header : cups_page_header_t) (g0 : Globals)
    (pre : List (List Nat)) (buf : List Nat) (post : List (List Nat))
    (hw : 1 ≤ header.cupsBytesPerLine)
    (hwf : ∀ b ∈ pre ++ buf :: post, b.length = header.cupsBytesPerLine)
    (hbuf : ¬ ∀ x ∈ buf, x = 0) :
    (∀ (n : Nat) (g : Globals) (lines : List (List Nat)),
      main.lines header n g lines =
        (main.seq header g (linesRead header n lines)).map
          (fun r => (r.1, r.2.flatMap Instr.bytes))) ∧
    (∃ (g1 : Globals) (before : List Instr) (g2 : Globals) (after : List Instr),
      main.seq header (StartPage header g0).1 pre = some (g1, before) ∧
      main.seq header (StartPage header g0).1 (pre ++ buf :: post) =
        some (g2, before ++ (if g1.Feed > 0 then [Instr.skip g1.Feed] else []) ++
          [Instr.planes (OutputLine.planes header g1 buf g1.NumPlanes 0)] ++ after) ∧
      ((before ++ (if g1.Feed > 0 then [Instr.skip g1.Feed] else [])).map Instr.skipped).sum +
          (before.map Instr.drawn).sum = pre.length ∧
      ((∀ b ∈ post, ∀ x ∈ b, x = 0) → after = [])) ∧
    (∀ (g : Globals) (blanks : List (List Nat)),
      (∀ b ∈ blanks, b.length = header.cupsBytesPerLine) →
      (∀ b ∈ blanks, ∀ x ∈ b, x = 0) →
      ∃ g' : Globals, main.seq header g blanks = some (g', [])) := by
  refine ⟨main_lines_seq header, ?_, fun g blanks h1 h2 => main_seq_blank header blanks hw h1 h2 g⟩
  have hpre : ∀ b ∈ pre, b.length = header.cupsBytesPerLine :=
    fun b hb => hwf b (List.mem_append_left _ hb)
  have hl : buf.length = header.cupsBytesPerLine :=
    hwf buf (List.mem_append_right _ (List.mem_cons_self _ _))
  have hpost : ∀ b ∈ post, b.length = header.cupsBytesPerLine :=
    fun b hb => hwf b (List.mem_append_right _ (List.mem_cons_of_mem _ hb))
  obtain ⟨g1, before, e1, hpos⟩ := main_seq_position header pre hw hpre (StartPage header g0).1
  obtain ⟨g2, after, e2, _⟩ := main_seq_position header post hw hpost { g1 with Feed := 0 }
  refine ⟨g1, before, g2, after, e1, ?_, ?_, ?_⟩
  · rw [main_seq_append, e1, Option.some_bind, main.seq, main_lineInstrs_eq header g1 buf hl hw,
      if_neg hbuf]
    simp only [e2, Option.map_some', OutputLine.instrs, List.append_assoc]
  · have hf0 : (StartPage header g0).1.Feed = 0 := rfl
    rw [hf0] at hpos
    simp only [List.map_append, List.sum_append]
    by_cases hf : g1.Feed > 0
    · simp only [if_pos hf, List.map_cons, List.map_nil, List.sum_cons, List.sum_nil,
        Instr.skipped]
      omega
    · simp only [if_neg hf, List.map_nil, List.sum_nil]
      omega
  · intro hz
    obtain ⟨g', e3⟩ := main_seq_blank header post hw hpost hz { g1 with Feed := 0 }
    rw [e3] at e2
    simp only [Option.some.injEq, Prod.mk.injEq] at e2
    exact e2.2.symm

/-- A page of two blank lines, a line with a non-zero byte, and a blank line. -/
theorem vertical_position_witness :
    ∃ (g1 : Globals) (before : List Instr) (g2 : Globals) (after : List Instr),
      main.seq exampleHeader (StartPage exampleHeader initialGlobals).1 [[0, 0], [0, 0]] =
        some (g1, before) ∧
      main.seq exampleHeader (StartPage exampleHeader initialGlobals).1
          ([[0, 0], [0, 0]] ++ [1, 0] :: [[0, 0]]) =
        some (g2, before ++ (if g1.Feed > 0 then [Instr.skip g1.Feed] else []) ++
          [Instr.planes (OutputLine.planes exampleHeader g1 [1, 0] g1.NumPlanes 0)] ++ after) ∧
      ((before ++ (if g1.Feed > 0 then [Instr.skip g1.Feed] else [])).map Instr.skipped).sum +
          (before.map Instr.drawn).sum = ([[0, 0], [0, 0]] : List (List Nat)).length ∧
      ((∀ b ∈ ([[0, 0]] : List (List Nat)), ∀ x ∈ b, x = 0) → after = []) :=
  (vertical_position exampleHeader initialGlobals [[0, 0], [0, 0]] [1, 0] [[0, 0]]
    (by decide) (by decide) (by decide)).2.1

theorem CancelJob_filler_eq (g : Globals) :
    CancelJob.filler g = 600 ∧
      (CancelJob g).stdout = List.replicate 600 0 ++ ((EndPage g).2 ++ Shutdown) := by
  refine ⟨?_, by simp only [CancelJob, List.append_assoc]⟩
  simp only [CancelJob.filler, CancelJob, List.length_append, List.length_replicate]
  omega

/-- C18, as stated, fails: for a page with lines of 601 bytes the handler writes
fewer filler bytes than one scanline holds. -/
theorem filler_size_counterexample :
    ¬ (CancelJob.filler (StartPage { exampleHeader with cupsBytesPerLine := 601 } initialGlobals).1 ≥
        ({ exampleHeader with cupsBytesPerLine := 601 } : cups_page_header_t).cupsBytesPerLine) := by
  rw [(CancelJob_filler_eq _).1]
  decide

/-- C18, amended: the number of filler bytes `CancelJob` writes before teardown
is 600 for every page header and every state, so it is at least the scanline
width exactly when `cupsBytesPerLine ≤ 600`. -/
theorem filler_size (header : cups_page_header_t) (g : Globals) :
    CancelJob.filler (StartPage header g).1 = 600 ∧
    (∀ g' : Globals, CancelJob.filler g' = 600 ∧
      (CancelJob g').stdout = List.replicate 600 0 ++ ((EndPage g').2 ++ Shutdown)) ∧
    (CancelJob.filler (StartPage header g).1 ≥ header.cupsBytesPerLine ↔
      header.cupsBytesPerLine ≤ 600) := by
  refine ⟨(CancelJob_filler_eq _).1, CancelJob_filler_eq, ?_⟩
  rw [(CancelJob_filler_eq _).1]

/-- C17, as stated, fails: in the effects of a page with compression there are
points where the handler is armed and the buffers are not allocated. -/
theorem handler_arming_counterexample :
    ¬ (∀ r ∈ Effect.trace { handler := false, planes := false, compBuffer := false }
          (StartPage.effects exampleColourHeader initialGlobals ++
            EndPage.effects (StartPage exampleColourHeader initialGlobals).1),
        r.handler = true → r.planes = true ∧ r.compBuffer = true) := by
  decide

/-- C17, amended: the first effect of `StartPage` arms the handler, with the
buffers as they were, and the allocations come after it; the handler stays
armed through `StartPage`, which ends with the buffers allocated; in `EndPage`
nothing is freed while the handler is armed, and `EndPage` ends with the
handler disarmed and the line buffer freed.  The bytes written by the effects
are the outputs of `StartPage` and `EndPage`. -/
theorem handler_arming_order (header : cups_page_header_t) (g : Globals) (r : Resources) :
    (∃ rest, StartPage.effects header g = Effect.sigterm true :: rest ∧
      Effect.mallocPlanes header.cupsBytesPerLine ∈ rest ∧
      (header.cupsCompression ≠ 0 →
        Effect.mallocCompBuffer (header.cupsBytesPerLine * 2) ∈ rest)) ∧
    (Effect.trace r (StartPage.effects header g)).head? = some { r with handler := true } ∧
    (∀ r' ∈ Effect.trace r (StartPage.effects header g), r'.handler = true) ∧
    (Effect.trace r (StartPage.effects header g)).getLast? =
      some { handler := true, planes := true,
             compBuffer := if header.cupsCompression ≠ 0 then true else r.compBuffer } ∧
    (∀ r' ∈ Effect.trace r (EndPage.effects g),
      r'.handler = true → r'.planes = r.planes ∧ r'.compBuffer = r.compBuffer) ∧
    (∃ c, (Effect.trace r (EndPage.effects g)).getLast? =
      some { handler := false, planes := false, compBuffer := c }) ∧
    ((StartPage.effects header g).flatMap
        (fun e => match e with | Effect.write bytes => bytes | _ => []) = (StartPage header g).2) ∧
    ((EndPage.effects g).flatMap
        (fun e => match e with | Effect.write bytes => bytes | _ => []) = (EndPage g).2) := by
  refine ⟨?_, ?_, ?_, ?_, ?_, ?_, ?_, ?_⟩
  · refine ⟨_, rfl, ?_, ?_⟩
    · simp
    · intro hc
      simp [hc]
  · rfl
  · intro r' hr'
    by_cases hc : header.cupsCompression ≠ 0
    · simp only [StartPage.effects, if_pos hc, List.cons_append, List.nil_append,
        Effect.trace, Effect.apply, List.mem_cons, List.mem_nil_iff, or_false] at hr'
      rcases hr' with h | h | h | h | h <;> rw [h]
    · simp only [StartPage.effects, if_neg hc, List.append_nil,
        Effect.trace, Effect.apply, List.mem_cons, List.mem_nil_iff, or_false] at hr'
      rcases hr' with h | h | h | h <;> rw [h]
  · by_cases hc : header.cupsCompression ≠ 0
    · simp [StartPage.effects, hc, Effect.trace, Effect.apply]
    · simp [StartPage.effects, hc, Effect.trace, Effect.apply]
  · intro r' hr'
    cases hb : g.CompBuffer.isSome with
    | true =>
        simp only [EndPage.effects, hb, if_true, List.cons_append, List.nil_append,
          Effect.trace, Effect.apply, List.mem_cons, List.mem_nil_iff, or_false] at hr'
        rcases hr' with h | h | h | h | h <;> rw [h] <;> simp
    | false =>
        simp only [EndPage.effects, hb, Bool.false_eq_true, if_false, List.append_nil,
          Effect.trace, Effect.apply, List.mem_cons, List.mem_nil_iff, or_false] at hr'
        rcases hr' with h | h | h | h <;> rw [h] <;> simp
  · cases hb : g.CompBuffer.isSome with
    | true => exact ⟨false, by simp [EndPage.effects, hb, Effect.trace, Effect.apply]⟩
    | false => exact ⟨r.compBuffer, by simp [EndPage.effects, hb, Effect.trace, Effect.apply]⟩
  · by_cases hc : header.cupsCompression ≠ 0
    · simp [StartPage.effects, hc, StartPage]
    · simp [StartPage.effects, hc, StartPage]
  · cases hb : g.CompBuffer.isSome with
    | true => simp [EndPage.effects, hb]
    | false => simp [EndPage.effects, hb]

end Rastertohp
